import Mathlib

/-
Verification of the numeric pipeline in `risk.py` (class `CompareMetrics`).

Shallow embedding conventions:
  * A price cell is `Option ℚ`: `none` models a pandas NaN ("missing"),
    `some v` an observed price.  Exact rationals stand in for the floats.
  * A computation that Python aborts with `ZeroDivisionError` (for example
    `totalROC / numCounted` with `numCounted = 0`, or an empty `max`) is
    modelled by an `Option` result that is `none` at that point.
  * `math.sqrt` is modelled by `Real.sqrt`, so the two ratio functions and
    the Pearson coefficient live in `ℝ` (their purely rational parts are
    kept in computable `ℚ` definitions).
-/

/-- A single price cell: `none` models NaN (a missing observation). -/
abbrev Cell := Option ℚ

/-- One date row of the price table. -/
abbrev Row := List Cell

/-- The externally supplied price table: rows in chronological order. -/
abbrev PriceTable := List Row

/-- One iteration of the inner `for seriesIdx in range(len(row.index))` loop of
`__calc_daily_returns` (risk.py lines 37-50).  State: the `lastValues` dict
(as a map from series index to last observed price), `totalROC`, `numCounted`.
Note that BOTH observed-cell branches increment `numCounted` (lines 44 and 50). -/
def cdStep : ((ℕ → Option ℚ) × ℚ × ℕ) → (ℕ × Cell) → ((ℕ → Option ℚ) × ℚ × ℕ)
  | (last, roc, n), (i, c) =>
    match last i, c with
    | none, none => (last, roc, n)
    | none, some v => (Function.update last i (some v), roc, n + 1)
    | some _, none => (last, roc, n)
    | some prev, some v => (Function.update last i (some v), roc + (v - prev) / prev, n + 1)

/-- Processing of one row of the table by `__calc_daily_returns`: fold the
cell loop over the (index, cell) pairs of the row. -/
def rowPass (last : ℕ → Option ℚ) (r : Row) : (ℕ → Option ℚ) × ℚ × ℕ :=
  r.enum.foldl cdStep (last, 0, 0)

/-- The outer row loop of `__calc_daily_returns` (risk.py lines 27-52),
threading the `lastValues` state forward.  Each appended entry is
`totalROC / numCounted`; `none` records that Python raises
`ZeroDivisionError` there when `numCounted = 0`. -/
def calcAux (last : ℕ → Option ℚ) : PriceTable → List (Option ℚ)
  | [] => []
  | r :: rs =>
    (if (rowPass last r).2.2 = 0 then none
     else some ((rowPass last r).2.1 / ((rowPass last r).2.2 : ℚ))) :: calcAux (rowPass last r).1 rs

/-- `__calc_daily_returns` (risk.py lines 20-54): the `lastValues` dict starts
empty, locally to the call. -/
def calc_daily_returns (t : PriceTable) : List (Option ℚ) :=
  calcAux (fun _ => none) t

/-- Cell-loop step following the SPEC's words instead of the code: an observed
cell with no prior observed price records the price but "does not increment the
row's counted-asset count" (spec section 4.1 step 2).  Used only to compare the
spec's reading of `__calc_daily_returns` with the code's actual behaviour. -/
def cdStepSpec : ((ℕ → Option ℚ) × ℚ × ℕ) → (ℕ × Cell) → ((ℕ → Option ℚ) × ℚ × ℕ)
  | (last, roc, n), (i, c) =>
    match last i, c with
    | none, none => (last, roc, n)
    | none, some v => (Function.update last i (some v), roc, n)
    | some _, none => (last, roc, n)
    | some prev, some v => (Function.update last i (some v), roc + (v - prev) / prev, n + 1)

/-- Row processing under the spec's (no-increment) reading. -/
def rowPassSpec (last : ℕ → Option ℚ) (r : Row) : (ℕ → Option ℚ) × ℚ × ℕ :=
  r.enum.foldl cdStepSpec (last, 0, 0)

/-- Table recursion under the spec's (no-increment) reading. -/
def calcAuxSpec (last : ℕ → Option ℚ) : PriceTable → List (Option ℚ)
  | [] => []
  | r :: rs =>
    (if (rowPassSpec last r).2.2 = 0 then none
     else some ((rowPassSpec last r).2.1 / ((rowPassSpec last r).2.2 : ℚ))) :: calcAuxSpec (rowPassSpec last r).1 rs

/-- Daily-return derivation as the SPEC describes it (counted-asset count not
incremented on a first observation).  Second definition of a refinement pair;
compare with `calc_daily_returns`. -/
def calc_daily_returns_spec (t : PriceTable) : List (Option ℚ) :=
  calcAuxSpec (fun _ => none) t

/-- `__calc_daily_values` (risk.py lines 60-61): `portfolio.sum(axis=1)`.
pandas sums each row skipping NaN, i.e. a missing cell contributes 0. -/
def calc_daily_values (t : PriceTable) : List ℚ :=
  t.map (fun r => (r.map (fun c => c.getD 0)).sum)

/-- Turn a list of per-row `Option` results into an `Option` list: `none` as
soon as one entry is `none` (that Python run would already have raised). -/
def seqOption {α : Type} : List (Option α) → Option (List α)
  | [] => some []
  | none :: _ => none
  | some v :: rest => (seqOption rest).map (fun l => v :: l)

/-- Arithmetic mean of a list, written as the code writes it: `sum / len`. -/
def listMean (l : List ℚ) : ℚ := l.sum / (l.length : ℚ)

/-- Population standard deviation of a list (divide by the count, not count-1),
as used by the spec's description of the Sharpe ratio. -/
noncomputable def popStdev (l : List ℚ) : ℝ :=
  Real.sqrt (((l.map (fun x => (x - listMean l) ^ 2)).sum / (l.length : ℚ) : ℚ))

/-- The compounding `(1 + avgDailyRet) ** adjustedScale - 1` shared by
`__sharpe_ratio` (line 151) and the fallback branch of `__my_metric`
(line 106). -/
def avg_period_return (vals : List ℚ) (scale : ℕ) : ℚ :=
  (1 + vals.sum / (vals.length : ℚ)) ^ scale - 1

/-- `burkeRatioIdx = len(self.portfolio.index) - 1 - daysin` (risk.py line 78). -/
def burkeIdx (t : PriceTable) (daysin : ℕ) : ℕ := t.length - 1 - daysin

/-- One iteration of the stock loop in the direct branch of `__my_metric`
(risk.py lines 90-93): accumulate `(target - init) / init` and the count when
both cells are observed.  The pair is `(initRow cell, targetRow cell)`. -/
def wStep : (ℚ × ℕ) → (Cell × Cell) → (ℚ × ℕ)
  | (acc, n), (some a, some b) => (acc + (b - a) / a, n + 1)
  | (acc, n), (_, _) => (acc, n)

/-- The full stock loop of `__my_metric`'s direct branch.  The Python loop
runs over the series indices of the (rectangular) table and indexes both rows;
zipping the two rows is the same traversal. -/
def windowFold (initRow targetRow : Row) : ℚ × ℕ :=
  (initRow.zip targetRow).foldl wStep (0, 0)

/-- The percent change of one asset over the Burke window, when observed at
both endpoints; used for the spec-side description of the window return. -/
def pctChange : Cell × Cell → Option ℚ
  | (some a, some b) => some ((b - a) / a)
  | _ => none

/-- Burke window return as the SPEC words it: the equal-weighted mean, over
assets observed at both endpoint rows, of `(target - init) / init`;
undefined when no asset is observed at both. -/
def window_return_spec (initRow targetRow : Row) : Option ℚ :=
  if ((initRow.zip targetRow).filterMap pctChange).length = 0 then none
  else some (((initRow.zip targetRow).filterMap pctChange).sum /
    (((initRow.zip targetRow).filterMap pctChange).length : ℚ))

/-- The `returns` computed by `__my_metric` (risk.py lines 75-106).  The
literal 252 is the overridden `adjustedScale` (line 73).  Direct branch when
`adjustedScale <= burkeRatioIdx + 1`; otherwise compound the mean of the
daily-returns prefix.  Python computes `initDateIdx = burkeRatioIdx - 252 + 1`
in ℤ (line 84); under the branch guard that value is nonnegative and equals
`burkeIdx + 1 - 252` in ℕ, which is the rendering used here (a bare ℕ
`burkeIdx - 252 + 1` would truncate to 1 instead of 0 at `burkeIdx = 251`).
`none` records a Python `ZeroDivisionError` (`numCounted = 0`, or an empty
prefix) or an earlier crash inside `__calc_daily_returns`. -/
def burke_returns (t : PriceTable) (daysin : ℕ) : Option ℚ :=
  if 252 ≤ burkeIdx t daysin + 1 then
    if (windowFold (t.getD (burkeIdx t daysin + 1 - 252) []) (t.getD (burkeIdx t daysin) [])).2 = 0 then none
    else some ((windowFold (t.getD (burkeIdx t daysin + 1 - 252) []) (t.getD (burkeIdx t daysin) [])).1 /
      (((windowFold (t.getD (burkeIdx t daysin + 1 - 252) []) (t.getD (burkeIdx t daysin) [])).2 : ℕ) : ℚ))
  else
    match seqOption ((calc_daily_returns t).take (burkeIdx t daysin + 1)) with
    | none => none
    | some vals => if vals.length = 0 then none else some (avg_period_return vals 252)

/-- `self.daily_values[0 : burkeRatioIdx + 1]` (risk.py line 114). -/
def dvSlice (t : PriceTable) (daysin : ℕ) : List ℚ :=
  (calc_daily_values t).take (burkeIdx t daysin + 1)

/-- `__my_metric` (risk.py lines 72-125), the Burke ratio.  The first line of
the body re-binds `adjustedScale = 252`, discarding the caller's value.
`maximum` is Python's `max(sumValues)` (raises on an empty list, hence the
`none` arm), and the result divides the excess return by the square root of
the summed squared drawdowns. -/
noncomputable def my_metric (t : PriceTable) (daysin adjustedScale : ℕ) : Option ℝ :=
  let adjustedScale : ℕ := 252
  let riskFree : ℚ := 0.0426 / 252 * (adjustedScale : ℚ)
  match burke_returns t daysin, dvSlice t daysin with
  | some r, v :: vs =>
    some (((r - riskFree : ℚ) : ℝ) /
      Real.sqrt (((((v :: vs).map (fun x => (x - vs.foldl max v) / vs.foldl max v)).map
        (fun x => x ^ 2)).sum : ℚ)))
  | _, _ => none

/-- `__sharpe_ratio` (risk.py lines 137-159).  The prefix drops the most
recent `daysin` entries; the standard deviation divides by the count and is
then multiplied linearly by `adjustedScale` (line 155, as written). -/
noncomputable def sharpe (t : PriceTable) (daysin adjustedScale : ℕ) : Option ℝ :=
  let riskFree : ℚ := 0.0426 / 252 * (adjustedScale : ℚ)
  match seqOption ((calc_daily_returns t).take ((calc_daily_returns t).length - daysin)) with
  | none => none
  | some vals =>
    if vals.length = 0 then none
    else
      some (((avg_period_return vals adjustedScale - riskFree : ℚ) : ℝ) /
        (Real.sqrt (((vals.map (fun x => (x - vals.sum / (vals.length : ℚ)) ^ 2)).sum /
          (vals.length : ℚ) : ℚ)) * (adjustedScale : ℝ)))

/-- The period-return component of `__sharpe_ratio` in isolation (its
`avgPeriodRet`, risk.py lines 147-151), over the same prefix selection the
code uses. -/
def sharpe_avg_period (t : PriceTable) (daysin scale : ℕ) : Option ℚ :=
  match seqOption ((calc_daily_returns t).take ((calc_daily_returns t).length - daysin)) with
  | none => none
  | some vals => if vals.length = 0 then none else some (avg_period_return vals scale)

/-- Python's `range(start, stop, step)` for a positive step. -/
def pyRange (start stop step : ℕ) : List ℕ :=
  (List.range ((stop - start + step - 1) / step)).map (fun k => start + step * k)

/-- `__compare_metrics` (risk.py lines 166-178): for each offset in
`range(1, 800, 15)` record the pair of ratios, in input order.  An entry is
`(offset, Sharpe column value, Burke column value)`. -/
noncomputable def compare_metrics (t : PriceTable) : List (ℕ × Option ℝ × Option ℝ) :=
  (pyRange 1 800 15).map (fun i => (i, sharpe t i 252, my_metric t i 252))

/-- One iteration of the accumulation loop of `__get_correlation_coefficient`
(risk.py lines 198-201): add `dX*dY`, `dX^2`, `dY^2`. -/
def pStep (ax ay : ℝ) : (ℝ × ℝ × ℝ) → (ℝ × ℝ) → (ℝ × ℝ × ℝ)
  | (sxy, sx2, sy2), (x, y) =>
    (sxy + (x - ax) * (y - ay), sx2 + (x - ax) ^ 2, sy2 + (y - ay) ^ 2)

/-- The Pearson computation of `__get_correlation_coefficient` on two columns
(risk.py lines 192-204): means, one accumulation pass over the paired values,
then `sumdXdY / sqrt(sumdX2 * sumdY2)`.  The Python loop runs over the index
range of the first column and indexes both; for equal-length columns that is
the zip traversal. -/
noncomputable def pearson (xs ys : List ℝ) : ℝ :=
  ((xs.zip ys).foldl (pStep (xs.sum / (xs.length : ℝ)) (ys.sum / (ys.length : ℝ))) (0, 0, 0)).1 /
    Real.sqrt (((xs.zip ys).foldl (pStep (xs.sum / (xs.length : ℝ)) (ys.sum / (ys.length : ℝ))) (0, 0, 0)).2.1 *
      ((xs.zip ys).foldl (pStep (xs.sum / (xs.length : ℝ)) (ys.sum / (ys.length : ℝ))) (0, 0, 0)).2.2)

/-- Pearson correlation as the SPEC words it:
`r = SUM (xi-xbar)(yi-ybar) / sqrt(SUM (xi-xbar)^2 * SUM (yi-ybar)^2)`. -/
noncomputable def pearson_spec (xs ys : List ℝ) : ℝ :=
  ((xs.zip ys).map (fun p => (p.1 - xs.sum / (xs.length : ℝ)) * (p.2 - ys.sum / (ys.length : ℝ)))).sum /
    Real.sqrt ((xs.map (fun x => (x - xs.sum / (xs.length : ℝ)) ^ 2)).sum *
      (ys.map (fun y => (y - ys.sum / (ys.length : ℝ)) ^ 2)).sum)

/-- `__get_correlation_coefficient` applied to the two columns of the sweep
table (risk.py lines 185-204); `none` if a column value is itself the result
of a crashed ratio computation. -/
noncomputable def get_correlation_coefficient (t : PriceTable) : Option ℝ :=
  match seqOption ((compare_metrics t).map (fun p => p.2.1)),
        seqOption ((compare_metrics t).map (fun p => p.2.2)) with
  | some xs, some ys => some (pearson xs ys)
  | _, _ => none

/-- Concrete one-row, one-asset table used as a test input. -/
def tOne : PriceTable := [[some 100]]

/-- Concrete two-row, one-asset table used as a test input. -/
def tTwo : PriceTable := [[some 1], [some 2]]

/-- Concrete one-row table with one missing and one observed cell. -/
def tMix : PriceTable := [[none, some 3]]

/-- The row recursion produces one entry per table row. -/
theorem calcAux_length (last : ℕ → Option ℚ) (t : PriceTable) :
    (calcAux last t).length = t.length := by
  induction t generalizing last with
  | nil => rfl
  | cons r rs ih => simp [calcAux, ih]

/-- `DailyReturn` has the same length as the price table. -/
theorem calc_daily_returns_length (t : PriceTable) :
    (calc_daily_returns t).length = t.length :=
  calcAux_length _ t

/-- `DailyValue` has the same length as the price table. -/
theorem calc_daily_values_length (t : PriceTable) :
    (calc_daily_values t).length = t.length := by
  simp [calc_daily_values]

/-- A sequenced option list keeps its length. -/
theorem seqOption_length {α : Type} (l : List (Option α)) (v : List α)
    (h : seqOption l = some v) : v.length = l.length := by
  induction l generalizing v with
  | nil => simp [seqOption] at h; simp [← h]
  | cons c rest ih =>
    cases c with
    | none => simp [seqOption] at h
    | some x =>
      cases hrest : seqOption rest with
      | none => rw [seqOption, hrest] at h; simp at h
      | some w =>
        rw [seqOption, hrest] at h
        simp only [Option.map_some', Option.some.injEq] at h
        simp [← h, ih w hrest]

/-- The fold of the cell loop adds one to the count for exactly the observed
cells, regardless of the `lastValues` state. -/
theorem cdStep_count (ps : List (ℕ × Cell)) (s : (ℕ → Option ℚ) × ℚ × ℕ) :
    (ps.foldl cdStep s).2.2 = s.2.2 + ps.countP (fun p => p.2.isSome) := by
  induction ps generalizing s with
  | nil => simp
  | cons p ps ih =>
    obtain ⟨i, c⟩ := p
    obtain ⟨last, roc, n⟩ := s
    cases hl : last i <;> cases c <;>
      simp [List.countP_cons, cdStep, hl, ih] <;> omega

/-- The per-row counted denominator is the number of observed cells. -/
theorem rowPass_count (last : ℕ → Option ℚ) (r : Row) :
    (rowPass last r).2.2 = r.countP (fun c => c.isSome) := by
  rw [rowPass, cdStep_count, Nat.zero_add]
  conv_rhs => rw [← List.enum_map_snd r]
  rw [List.countP_map]
  rfl

/-- On a state with no recorded prices at the indices still to be visited,
the cell loop leaves the rate-of-change accumulator unchanged. -/
theorem cdStep_roc_fresh (r : Row) (k : ℕ) (last : ℕ → Option ℚ) (roc : ℚ) (n : ℕ)
    (h : ∀ j, k ≤ j → last j = none) :
    ((List.enumFrom k r).foldl cdStep (last, roc, n)).2.1 = roc := by
  induction r generalizing k last roc n with
  | nil => simp
  | cons c cs ih =>
    have hk : last k = none := h k le_rfl
    cases c with
    | none =>
      rw [show List.enumFrom k (none :: cs) = (k, none) :: List.enumFrom (k+1) cs from rfl,
        List.foldl_cons, show cdStep (last, roc, n) (k, none) = (last, roc, n) by simp [cdStep, hk]]
      exact ih (k+1) last roc n (fun j hj => h j (le_trans (Nat.le_succ k) hj))
    | some v =>
      rw [show List.enumFrom k (some v :: cs) = (k, some v) :: List.enumFrom (k+1) cs from rfl,
        List.foldl_cons,
        show cdStep (last, roc, n) (k, some v) = (Function.update last k (some v), roc, n+1) by
          simp [cdStep, hk]]
      refine ih (k+1) _ roc (n+1) (fun j hj => ?_)
      rw [Function.update_noteq (by omega)]
      exact h j (by omega)

/-- Entry `i` of the derived daily returns is the undefined marker exactly
when row `i` has no observed cell. -/
theorem calcAux_getD_none (t : PriceTable) (last : ℕ → Option ℚ) (i : ℕ)
    (h : i < t.length) :
    ((calcAux last t).getD i (some 0) = none ↔
      (t.getD i []).countP (fun c => c.isSome) = 0) := by
  induction t generalizing last i with
  | nil => simp at h
  | cons r rs ih =>
    cases i with
    | zero =>
      simp only [calcAux, List.getD_cons_zero, rowPass_count]
      by_cases hc : r.countP (fun c => c.isSome) = 0
      · simp [hc]
      · simp [hc]
    | succ i =>
      simp only [calcAux, List.getD_cons_succ]
      exact ih (rowPass last r).1 i (by simpa using h)

/-- The stock-loop fold of the Burke direct branch accumulates the sum and the
count of the percent changes of the co-observed pairs. -/
theorem wStep_foldl (ps : List (Cell × Cell)) (a : ℚ) (n : ℕ) :
    ps.foldl wStep (a, n) =
      (a + (ps.filterMap pctChange).sum, n + (ps.filterMap pctChange).length) := by
  induction ps generalizing a n with
  | nil => simp
  | cons p ps ih =>
    obtain ⟨c1, c2⟩ := p
    cases c1 <;> cases c2 <;>
      simp [wStep, pctChange, ih, add_assoc] <;> omega

/-- The initial value is bounded by the running maximum. -/
theorem le_foldl_max (vs : List ℚ) (v : ℚ) : v ≤ vs.foldl max v := by
  induction vs generalizing v with
  | nil => simp
  | cons y ys ih => exact le_trans (le_max_left v y) (ih (max v y))

/-- Every list element is bounded by the running maximum. -/
theorem mem_le_foldl_max (vs : List ℚ) (v x : ℚ) (hx : x ∈ vs) :
    x ≤ vs.foldl max v := by
  induction vs generalizing v with
  | nil => simp at hx
  | cons y ys ih =>
    rcases List.mem_cons.1 hx with rfl | hx
    · exact le_trans (le_max_right v x) (le_foldl_max ys (max v x))
    · exact ih (max v y) hx

/-- The running maximum is one of the fold's inputs. -/
theorem foldl_max_mem (vs : List ℚ) (v : ℚ) : vs.foldl max v ∈ v :: vs := by
  induction vs generalizing v with
  | nil => simp
  | cons y ys ih =>
    rcases List.mem_cons.1 (ih (max v y)) with h | h
    · rcases max_choice v y with hm | hm <;> rw [List.foldl_cons, h, hm] <;> simp
    · simp [List.foldl_cons]
      right; right; exact h

/-- The correlation accumulation loop computes the three deviation sums. -/
theorem pStep_foldl (ax ay : ℝ) (ps : List (ℝ × ℝ)) (a b c : ℝ) :
    ps.foldl (pStep ax ay) (a, b, c) =
      (a + (ps.map (fun p => (p.1 - ax) * (p.2 - ay))).sum,
       b + (ps.map (fun p => (p.1 - ax) ^ 2)).sum,
       c + (ps.map (fun p => (p.2 - ay) ^ 2)).sum) := by
  induction ps generalizing a b c with
  | nil => simp
  | cons p ps ih =>
    obtain ⟨x, y⟩ := p
    simp [pStep, ih, add_assoc]

/-- Zipping a list with itself pairs each element with itself. -/
theorem zip_self_eq_map {α : Type} (l : List α) :
    l.zip l = l.map (fun a => (a, a)) := by
  induction l with
  | nil => rfl
  | cons x xs ih => simp [ih]

/-- Summing the pointwise negation negates the sum. -/
theorem sum_map_neg_eq (l : List ℝ) : (l.map (fun x => -x)).sum = -l.sum := by
  induction l with
  | nil => simp
  | cons x xs ih => simp [ih]; ring

/-- C1 counterexample: on the one-row table `[[100]]` the code counts the
first observation (risk.py line 44), so the very first row's DailyReturn is
the defined value 0, not an undefined division-by-zero; the spec's
no-increment reading would instead leave the first row undefined.  This
refutes the claim that a first observation "does not increment the row's
counted-asset count" and that the first row's return is undefined. -/
theorem c1_first_row_counterexample :
    calc_daily_returns tOne = [some 0] ∧
    calc_daily_returns tOne ≠ [none] ∧
    calc_daily_returns_spec tOne = [none] := by
  have h1 : calc_daily_returns tOne = [some 0] := by
    norm_num [tOne, calc_daily_returns, calcAux, rowPass, cdStep, List.enum, List.enumFrom]
  have h3 : calc_daily_returns_spec tOne = [none] := by
    norm_num [tOne, calc_daily_returns_spec, calcAuxSpec, rowPassSpec, cdStepSpec,
      List.enum, List.enumFrom]
  exact ⟨h1, by simp [h1], h3⟩

/-- C1 amended: in `__calc_daily_returns` an observed cell with no prior
observed price records the price AND increments the row's counted-asset
count while contributing zero to the percent-change sum; consequently a
first row holding at least one observed price has a positive count and a
DailyReturn of exactly 0, not an undefined value. -/
theorem c1_first_row_amended (r : Row) (rs : PriceTable)
    (h : r.countP (fun c => c.isSome) ≠ 0) :
    (calc_daily_returns (r :: rs)).getD 0 none = some 0 := by
  have hroc : (rowPass (fun _ => none) r).2.1 = 0 := by
    have := cdStep_roc_fresh r 0 (fun _ => none) 0 0 (fun j _ => rfl)
    simpa [rowPass, List.enum] using this
  have hcnt : (rowPass (fun _ => none) r).2.2 = r.countP (fun c => c.isSome) :=
    rowPass_count _ _
  simp [calc_daily_returns, calcAux, hcnt, h, hroc]

/-- C1 amended, witness at the concrete table `[[100]]`. -/
theorem c1_first_row_amended_witness :
    ([some 100] : Row).countP (fun c => c.isSome) ≠ 0 ∧
    (calc_daily_returns ([some 100] :: ([] : PriceTable))).getD 0 none = some 0 :=
  ⟨by simp, c1_first_row_amended [some 100] [] (by simp)⟩

/-- C3: the Burke ratio re-binds `adjustedScale = 252` as its first statement
(risk.py line 73), so its value is independent of the caller-supplied scale:
`burkeRatio(daysIn, s) = burkeRatio(daysIn, 252)` for every `s`. -/
theorem c3_burke_scale_override (t : PriceTable) (daysin s : ℕ) :
    my_metric t daysin s = my_metric t daysin 252 := rfl

/-- C9: the per-row counted denominator equals the number of observed cells of
the row (an observed cell increments the count whether or not a prior observed
price exists), so the per-row division is undefined exactly on rows whose
cells are all missing, and is defined whenever some cell is observed. -/
theorem c9_denominator_observed (t : PriceTable) (last : ℕ → Option ℚ) (i : ℕ)
    (h : i < t.length) :
    (rowPass last (t.getD i [])).2.2 = (t.getD i []).countP (fun c => c.isSome) ∧
    ((calc_daily_returns t).getD i (some 0) = none ↔
      (t.getD i []).countP (fun c => c.isSome) = 0) ∧
    ((calc_daily_returns t).getD i (some 0) = none ↔
      (t.getD i []).all (fun c => c.isNone)) := by
  refine ⟨rowPass_count _ _, calcAux_getD_none t _ i h, ?_⟩
  rw [calc_daily_returns, calcAux_getD_none t _ i h, List.countP_eq_zero]
  simp only [List.all_eq_true]
  refine forall_congr' (fun c => imp_congr_right (fun _ => ?_))
  cases c <;> simp

/-- C9, witness at a one-row table with a missing and an observed cell. -/
theorem c9_denominator_observed_witness :
    0 < tMix.length ∧
    ((rowPass (fun _ => none) (tMix.getD 0 [])).2.2 =
        (tMix.getD 0 []).countP (fun c => c.isSome) ∧
      ((calc_daily_returns tMix).getD 0 (some 0) = none ↔
        (tMix.getD 0 []).countP (fun c => c.isSome) = 0) ∧
      ((calc_daily_returns tMix).getD 0 (some 0) = none ↔
        (tMix.getD 0 []).all (fun c => c.isNone))) :=
  ⟨by simp [tMix], c9_denominator_observed tMix (fun _ => none) 0 (by simp [tMix])⟩

/-- C10: deriving DailyReturn is deterministic: building it twice from the
same table gives the same sequence, and the derivation is exactly the row
recursion started from the empty local last-observed-price accumulator, so no
state outside the table influences the result. -/
theorem c10_deterministic (t : PriceTable) :
    calc_daily_returns t = calc_daily_returns t ∧
    calc_daily_returns t = calcAux (fun _ => none) t :=
  ⟨rfl, rfl⟩

/-- C8: when the Burke ratio takes its insufficient-history branch
(`252 > targetRowIndex + 1`), its period return is the compounding
`(1 + mean)^252 - 1` of the mean of exactly the DailyReturn prefix rows
`0 .. lastRowIndex - daysIn` that Sharpe's `avgPeriodRet` at scale 252 uses,
so the two ratios' excess-return numerators coincide. -/
theorem c8_fallback_matches_sharpe (t : PriceTable) (d : ℕ)
    (hd : d < t.length) (hshort : burkeIdx t d + 1 < 252) :
    burke_returns t d = sharpe_avg_period t d 252 ∧
    (burke_returns t d).map (fun r => r - 0.0426 / 252 * 252) =
      (sharpe_avg_period t d 252).map (fun r => r - 0.0426 / 252 * 252) := by
  have harg : burkeIdx t d + 1 = (calc_daily_returns t).length - d := by
    rw [calc_daily_returns_length]; unfold burkeIdx; omega
  have h1 : burke_returns t d = sharpe_avg_period t d 252 := by
    rw [burke_returns, if_neg (by omega), harg, sharpe_avg_period]
  exact ⟨h1, by rw [h1]⟩

/-- C8, witness at the concrete two-row table (two rows of history is far
below the 252-day window, so the fallback branch is the one taken). -/
theorem c8_fallback_matches_sharpe_witness :
    0 < tTwo.length ∧ burkeIdx tTwo 0 + 1 < 252 ∧
    (burke_returns tTwo 0 = sharpe_avg_period tTwo 0 252 ∧
      (burke_returns tTwo 0).map (fun r => r - 0.0426 / 252 * 252) =
        (sharpe_avg_period tTwo 0 252).map (fun r => r - 0.0426 / 252 * 252)) :=
  ⟨by simp [tTwo], by simp [tTwo, burkeIdx],
    c8_fallback_matches_sharpe tTwo 0 (by simp [tTwo]) (by simp [tTwo, burkeIdx])⟩

/-- C4: for `daysIn` within range, the Sharpe ratio equals the spec formula
`((1 + mean(prefix))^scale - 1 - (0.0426/252)*scale) / (popStdev(prefix) * scale)`
over the DailyReturn prefix of rows `0 .. lastRowIndex - daysIn`, with the
population standard deviation (divide by the count) scaled linearly by the
annualization scale. -/
theorem c4_sharpe_formula (t : PriceTable) (d s : ℕ) (vals : List ℚ)
    (hd : d < t.length)
    (hseq : seqOption ((calc_daily_returns t).take (t.length - d)) = some vals) :
    sharpe t d s =
      some ((((1 + listMean vals) ^ s - 1 - 0.0426 / 252 * (s : ℚ) : ℚ) : ℝ) /
        (popStdev vals * (s : ℝ))) := by
  have hlen : (calc_daily_returns t).length = t.length := calc_daily_returns_length t
  have hvlen : vals.length = t.length - d := by
    rw [seqOption_length _ _ hseq, List.length_take, hlen]; omega
  have hne : ¬ vals.length = 0 := by omega
  simp only [sharpe, hlen, hseq]
  rw [if_neg hne]
  simp only [avg_period_return, listMean, popStdev]

/-- C4, witness at the concrete two-row table, dropping one day, scale 3. -/
theorem c4_sharpe_formula_witness :
    1 < tTwo.length ∧
    seqOption ((calc_daily_returns tTwo).take (tTwo.length - 1)) = some [0] ∧
    sharpe tTwo 1 3 =
      some ((((1 + listMean [0]) ^ 3 - 1 - 0.0426 / 252 * ((3 : ℕ) : ℚ) : ℚ) : ℝ) /
        (popStdev [0] * ((3 : ℕ) : ℝ))) :=
  ⟨by simp [tTwo],
    by norm_num [tTwo, calc_daily_returns, calcAux, rowPass, cdStep, List.enum,
      List.enumFrom, Function.update, seqOption],
    c4_sharpe_formula tTwo 1 3 [0] (by simp [tTwo])
      (by norm_num [tTwo, calc_daily_returns, calcAux, rowPass, cdStep, List.enum,
        List.enumFrom, Function.update, seqOption])⟩

/-- C6: the sweep has exactly 54 entries, its offsets are exactly the
arithmetic sequence 1, 16, 31, ..., 796 (start 1, step 15, below 800) in
strictly increasing input order, and every entry carries the Sharpe and Burke
ratios of its own offset computed from the same table-derived series. -/
theorem c6_sweep_structure (t : PriceTable) :
    (compare_metrics t).length = 54 ∧
    (compare_metrics t).map Prod.fst = (List.range 54).map (fun k => 1 + 15 * k) ∧
    List.Pairwise (· < ·) ((compare_metrics t).map Prod.fst) ∧
    ∀ p ∈ compare_metrics t, p.2.1 = sharpe t p.1 252 ∧ p.2.2 = my_metric t p.1 252 := by
  have hoff : (compare_metrics t).map Prod.fst = pyRange 1 800 15 := by
    rw [compare_metrics, List.map_map]
    exact (List.map_congr_left (fun a _ => rfl)).trans (List.map_id _)
  have hpy : pyRange 1 800 15 = (List.range 54).map (fun k => 1 + 15 * k) := by
    norm_num [pyRange]
  refine ⟨?_, ?_, ?_, ?_⟩
  · simp [compare_metrics, pyRange]
  · rw [hoff, hpy]
  · rw [hoff, hpy]
    exact (List.pairwise_lt_range 54).map _ (fun a b hab => by omega)
  · intro p hp
    simp only [compare_metrics, List.mem_map] at hp
    obtain ⟨i, _, rfl⟩ := hp
    exact ⟨rfl, rfl⟩

/-- C5: for `daysIn` within range (with the Burke scale forced to 252): in the
enough-history branch the period return is the equal-weighted mean over
co-observed assets of `(target - init)/init` between the window's endpoint
rows; and in either branch the Burke ratio is the excess period return divided
by the square root of the sum of squared drawdowns `(v - peak)/peak` over the
DailyValue rows `0 .. targetRowIndex`, where `peak` is the maximum DailyValue
of that range. -/
theorem c5_burke_formula (t : PriceTable) (d : ℕ) (hd : d < t.length) :
    (252 ≤ burkeIdx t d + 1 →
      burke_returns t d =
        window_return_spec (t.getD (burkeIdx t d + 1 - 252) []) (t.getD (burkeIdx t d) [])) ∧
    ∃ peak, peak ∈ dvSlice t d ∧ (∀ x ∈ dvSlice t d, x ≤ peak) ∧
      my_metric t d 252 =
        (burke_returns t d).map (fun r =>
          ((r - 0.0426 / 252 * 252 : ℚ) : ℝ) /
            Real.sqrt ((((dvSlice t d).map (fun v => ((v - peak) / peak) ^ 2)).sum : ℚ))) := by
  constructor
  · intro hge
    rw [burke_returns, if_pos hge, window_return_spec]
    simp only [windowFold, wStep_foldl, zero_add]
  · have hlen : (dvSlice t d).length = min (burkeIdx t d + 1) t.length := by
      rw [dvSlice, List.length_take, calc_daily_values_length]
    cases hsl : dvSlice t d with
    | nil => rw [hsl] at hlen; simp at hlen; omega
    | cons v vs =>
      refine ⟨vs.foldl max v, foldl_max_mem vs v, ?_, ?_⟩
      · intro x hx
        rcases List.mem_cons.1 hx with rfl | hx
        · exact le_foldl_max vs x
        · exact mem_le_foldl_max vs v x hx
      · cases hbr : burke_returns t d with
        | none => simp [my_metric, hsl, hbr]
        | some r =>
          simp [my_metric, hsl, hbr, List.map_map, Function.comp]
          rfl

/-- C5, witness at the concrete two-row table with `daysIn = 0`. -/
theorem c5_burke_formula_witness :
    0 < tTwo.length ∧
    ((252 ≤ burkeIdx tTwo 0 + 1 →
      burke_returns tTwo 0 =
        window_return_spec (tTwo.getD (burkeIdx tTwo 0 + 1 - 252) [])
          (tTwo.getD (burkeIdx tTwo 0) [])) ∧
    ∃ peak, peak ∈ dvSlice tTwo 0 ∧ (∀ x ∈ dvSlice tTwo 0, x ≤ peak) ∧
      my_metric tTwo 0 252 =
        (burke_returns tTwo 0).map (fun r =>
          ((r - 0.0426 / 252 * 252 : ℚ) : ℝ) /
            Real.sqrt ((((dvSlice tTwo 0).map
              (fun v => ((v - peak) / peak) ^ 2)).sum : ℚ)))) :=
  ⟨by simp [tTwo], c5_burke_formula tTwo 0 (by simp [tTwo])⟩

/-- A sum over a zip that uses only first components is a sum over the first
list, when the first list is not longer. -/
theorem sum_map_zip_fst (xs ys : List ℝ) (f : ℝ → ℝ) (hle : xs.length ≤ ys.length) :
    ((xs.zip ys).map (fun p => f p.1)).sum = (xs.map f).sum := by
  conv_rhs => rw [← List.map_fst_zip xs ys hle]
  rw [List.map_map]
  rfl

/-- A sum over a zip that uses only second components is a sum over the second
list, when the second list is not longer. -/
theorem sum_map_zip_snd (xs ys : List ℝ) (f : ℝ → ℝ) (hle : ys.length ≤ xs.length) :
    ((xs.zip ys).map (fun p => f p.2)).sum = (ys.map f).sum := by
  conv_rhs => rw [← List.map_snd_zip xs ys hle]
  rw [List.map_map]
  rfl

/-- The correlation accumulation loop computes the closed Pearson formula on
equal-length columns. -/
theorem pearson_eq_spec (xs ys : List ℝ) (hlen : ys.length = xs.length) :
    pearson xs ys = pearson_spec xs ys := by
  rw [pearson, pearson_spec, pStep_foldl]
  simp only [zero_add]
  rw [sum_map_zip_fst xs ys (fun x => (x - xs.sum / (xs.length : ℝ)) ^ 2) (by omega),
    sum_map_zip_snd xs ys (fun y => (y - ys.sum / (ys.length : ℝ)) ^ 2) (by omega)]

/-- A sum of squared deviations is nonnegative. -/
theorem sq_dev_sum_nonneg (xs : List ℝ) (m : ℝ) :
    0 ≤ (xs.map (fun x => (x - m) ^ 2)).sum := by
  apply List.sum_nonneg
  intro a ha
  obtain ⟨x, _, rfl⟩ := List.mem_map.1 ha
  positivity

/-- Feeding the correlation loop one series against itself gives 1 when the
series is not constant. -/
theorem pearson_self (xs : List ℝ)
    (h : (xs.map (fun x => (x - xs.sum / (xs.length : ℝ)) ^ 2)).sum ≠ 0) :
    pearson xs xs = 1 := by
  rw [pearson_eq_spec xs xs rfl, pearson_spec]
  have hnum : ((xs.zip xs).map (fun p =>
      (p.1 - xs.sum / (xs.length : ℝ)) * (p.2 - xs.sum / (xs.length : ℝ)))).sum =
      (xs.map (fun x => (x - xs.sum / (xs.length : ℝ)) ^ 2)).sum := by
    rw [zip_self_eq_map, List.map_map]
    refine congrArg List.sum (List.map_congr_left (fun a _ => ?_))
    simp only [Function.comp_apply]
    ring
  rw [hnum, Real.sqrt_mul_self (sq_dev_sum_nonneg xs _), div_self h]

/-- Summing pointwise negated values negates the sum, for any map body. -/
theorem sum_map_neg_comp {α : Type} (l : List α) (g : α → ℝ) :
    (l.map (fun a => -(g a))).sum = -(l.map g).sum := by
  induction l with
  | nil => simp
  | cons x xs ih => simp [ih]; ring

/-- Pairing a list with itself turns the deviation product into the squared
deviation. -/
theorem zip_self_sq_sum (xs : List ℝ) (m : ℝ) :
    ((xs.zip xs).map (fun p => (p.1 - m) * (p.2 - m))).sum =
      (xs.map (fun x => (x - m) ^ 2)).sum := by
  rw [zip_self_eq_map, List.map_map]
  refine congrArg List.sum (List.map_congr_left (fun a _ => ?_))
  simp only [Function.comp_apply]
  ring

/-- Feeding the correlation loop a series against its negation gives -1 when
the series is not constant. -/
theorem pearson_neg (xs : List ℝ)
    (h : (xs.map (fun x => (x - xs.sum / (xs.length : ℝ)) ^ 2)).sum ≠ 0) :
    pearson xs (xs.map (fun x => -x)) = -1 := by
  rw [pearson_eq_spec xs (xs.map (fun x => -x)) (by simp), pearson_spec]
  simp only [sum_map_neg_eq, List.length_map, List.zip_map_right, List.map_map]
  have hnum : ((xs.zip xs).map ((fun p =>
      (p.1 - xs.sum / (xs.length : ℝ)) * (p.2 - -xs.sum / (xs.length : ℝ))) ∘
        Prod.map id (fun x => -x))).sum =
      -(xs.map (fun x => (x - xs.sum / (xs.length : ℝ)) ^ 2)).sum := by
    have h1 : (xs.zip xs).map ((fun p =>
        (p.1 - xs.sum / (xs.length : ℝ)) * (p.2 - -xs.sum / (xs.length : ℝ))) ∘
          Prod.map id (fun x => -x)) =
        (xs.zip xs).map (fun p =>
          -((p.1 - xs.sum / (xs.length : ℝ)) * (p.2 - xs.sum / (xs.length : ℝ)))) := by
      refine List.map_congr_left (fun a _ => ?_)
      simp only [Function.comp_apply, Prod.map_fst, Prod.map_snd, id_eq]
      ring
    rw [h1, sum_map_neg_comp, zip_self_sq_sum]
  have hden : (xs.map ((fun y => (y - -xs.sum / (xs.length : ℝ)) ^ 2) ∘ (fun x => -x))).sum =
      (xs.map (fun x => (x - xs.sum / (xs.length : ℝ)) ^ 2)).sum := by
    refine congrArg List.sum (List.map_congr_left (fun a _ => ?_))
    simp only [Function.comp_apply]
    ring
  rw [hnum, hden, Real.sqrt_mul_self (sq_dev_sum_nonneg xs _), neg_div, div_self h]

/-- C7 counterexample: the identical constant pair `X = Y = [1, 1]` has zero
deviation sums, so the correlation is the undefined 0/0 value (Python: NaN),
not the claimed 1.0.  The claim fails as stated for constant series. -/
theorem c7_identical_constant_counterexample :
    pearson [(1 : ℝ), 1] [(1 : ℝ), 1] ≠ 1 := by
  have h0 : pearson [(1 : ℝ), 1] [(1 : ℝ), 1] = 0 := by
    rw [pearson, pStep_foldl]
    norm_num [List.zip_cons_cons, Real.sqrt_zero]
  rw [h0]
  norm_num

/-- C7 amended: the analyzer computes the Pearson formula
`r = SUM dX dY / sqrt(SUM dX^2 * SUM dY^2)` over the two sweep columns, and
for every pair of identical equal-length NONCONSTANT series (nonzero squared
deviation sum) it yields exactly 1, and for a nonconstant series and its
pointwise negation exactly -1; a constant series instead makes the
denominator zero and the result undefined. -/
theorem c7_pearson_behaviour (t : PriceTable) (xs ys : List ℝ)
    (hlen : ys.length = xs.length)
    (h : (xs.map (fun x => (x - xs.sum / (xs.length : ℝ)) ^ 2)).sum ≠ 0) :
    pearson xs ys = pearson_spec xs ys ∧
    pearson xs xs = 1 ∧
    pearson xs (xs.map (fun x => -x)) = -1 ∧
    (seqOption ((compare_metrics t).map (fun p => p.2.1)) = some xs →
      seqOption ((compare_metrics t).map (fun p => p.2.2)) = some ys →
      get_correlation_coefficient t = some (pearson_spec xs ys)) := by
  refine ⟨pearson_eq_spec xs ys hlen, pearson_self xs h, pearson_neg xs h, ?_⟩
  intro hX hY
  rw [get_correlation_coefficient, hX, hY]
  exact congrArg some (pearson_eq_spec xs ys hlen)

/-- C7 amended, witness at the concrete nonconstant columns [0, 1] and
[2, 5]. -/
theorem c7_pearson_behaviour_witness :
    (([2, 5] : List ℝ).length = ([0, 1] : List ℝ).length ∧
      (([0, 1] : List ℝ).map (fun x =>
        (x - ([0, 1] : List ℝ).sum / ((([0, 1] : List ℝ).length : ℕ) : ℝ)) ^ 2)).sum ≠ 0) ∧
    (pearson [0, 1] [2, 5] = pearson_spec [0, 1] [2, 5] ∧
      pearson [0, 1] [0, 1] = 1 ∧
      pearson [0, 1] (([0, 1] : List ℝ).map (fun x => -x)) = -1 ∧
      (seqOption ((compare_metrics []).map (fun p => p.2.1)) = some [0, 1] →
        seqOption ((compare_metrics []).map (fun p => p.2.2)) = some [2, 5] →
        get_correlation_coefficient [] = some (pearson_spec [0, 1] [2, 5]))) :=
  ⟨⟨by simp, by norm_num⟩,
    c7_pearson_behaviour [] [0, 1] [2, 5] (by simp) (by norm_num)⟩
